import Mathlib

/-!
Verification of the OpenMP sieve of Eratosthenes (`src/lab01/05/omp-sieve.c`).

The program computes the number of primes in `{2, …, n}`.  Its data model is
an array `isprime` of `n+1` boolean flags (all initialized to `1`), a function
`mark(isprime, from, to, p)` that clears the flags of all multiples of `p`
in `[from, to)` and returns how many flags it cleared for the first time, and
a sequential driver loop `for (i = 2; i*i <= n; i++)` that, whenever
`isprime[i]` still holds, calls `mark(isprime, i*i, n+1, i)` and subtracts
the returned count from the running total `nprimes = n-1`.

`mark` is parallelized over `W` OpenMP threads: thread `id` works on the
sub-range `[from + ((to-from)*id)/W, from + ((to-from)*(id+1))/W)`, snaps its
start up to the lowest multiple of `p` that is `≥` its sub-range start, and
walks that sub-range with stride `p`.  The sub-ranges are disjoint, so the
array writes are race free and the parallel execution is modelled here by
running the workers in increasing `id` order; the per-thread count updates
(`#pragma omp atomic`) are modelled by summing the workers' counts.

C's `from` is a Lean keyword and is rendered `frm`, and `to` is also reserved and is rendered `til`, throughout.  In C, a call
with `p = 0` divides by zero (undefined behaviour); the embedded `markLoop`
therefore carries the guard `0 < p`, and every statement about `mark` assumes
the documented precondition `p ≥ 1`.

The second half of the file builds a kernel-evaluable twin of the sieve
(`sieveFast`) working on a single natural number used as a bit mask of the
composite numbers found so far, marking each round with one geometric-series
mask and counting the marked bits with a strided digit-sum.  The twin is
proved equal to the embedded program, which lets the concrete values
`sieve 10 = 4 … sieve 1000000 = 78498` be checked by the kernel.
-/

/-- Sub-range start of worker `id`: `my_from = from + ((to-from)*id)/W`
(omp-sieve.c line 172, with `n = to - from` from line 171). -/
def subFrom (frm til W id : Nat) : Nat := frm + ((til - frm) * id) / W

/-- Sub-range end of worker `id`: `my_to = from + ((to-from)*(id+1))/W`
(omp-sieve.c line 173). -/
def subTo (frm til W id : Nat) : Nat := frm + ((til - frm) * (id + 1)) / W

/-- `((my_from + p - 1)/p)*p`: the lowest multiple of `p` that is `≥ my_from`
(omp-sieve.c line 175). -/
def alignUp (x p : Nat) : Nat := ((x + p - 1) / p) * p

/-- The marking loop of one worker (omp-sieve.c lines 176-182):
`for (x = my_from; x < my_to; x += p) if (isprime[x]) { isprime[x] = 0; nmarked++; }`.
The guard `0 < p` makes the recursion terminate; the C source divides by `p`
before entering the loop, so `p = 0` is undefined behaviour there. -/
def markLoop (isprime : Array Bool) (x til p : Nat) : Array Bool × Nat :=
  if h : x < til ∧ 0 < p then
    if isprime.getD x false then
      let r := markLoop (isprime.setD x false) (x + p) til p
      (r.1, r.2 + 1)
    else
      markLoop isprime (x + p) til p
  else
    (isprime, 0)
termination_by til - x
decreasing_by
  all_goals omega

/-- One worker of `mark` (omp-sieve.c lines 168-182): compute the sub-range
bounds, snap the start up to a multiple of `p`, then run the marking loop. -/
def markWorker (isprime : Array Bool) (frm til p W id : Nat) : Array Bool × Nat :=
  markLoop isprime (alignUp (subFrom frm til W id) p) (subTo frm til W id) p

/-- `mark(isprime, from, to, p)` with `W` workers (omp-sieve.c lines 156-185).
The workers run on pairwise disjoint sub-ranges, so the parallel execution is
modelled by running them in increasing `id` order; the atomic `nmarked++`
updates are modelled by summing the workers' counts. -/
def mark (isprime : Array Bool) (frm til p W : Nat) : Array Bool × Nat :=
  (List.range W).foldl
    (fun s id =>
      let r := markWorker s.1 frm til p W id
      (r.1, s.2 + r.2))
    (isprime, 0)

/-- The state after the workers `0, …, k-1` of `mark` have run: staging
definition for reasoning about the fold in `mark` one worker at a time
(`mark … W = markUpTo … W W` definitionally). -/
def markUpTo (isprime : Array Bool) (frm til p W k : Nat) : Array Bool × Nat :=
  (List.range k).foldl
    (fun s id =>
      let r := markWorker s.1 frm til p W id
      (r.1, s.2 + r.2))
    (isprime, 0)

/-- The driver loop of `main` (omp-sieve.c lines 213-218):
`for (i = 2; i*i <= n; i++) if (isprime[i]) nprimes -= mark(isprime, i*i, n+1, i);`. -/
def sieveAux (isprime : Array Bool) (i n W : Nat) (nprimes : Int) : Int :=
  if i * i ≤ n then
    if isprime.getD i false then
      let r := mark isprime (i * i) (n + 1) i W
      sieveAux r.1 (i + 1) n W (nprimes - (r.2 : Int))
    else
      sieveAux isprime (i + 1) n W nprimes
  else
    nprimes
termination_by n + 1 - i
decreasing_by
  all_goals
    have h2 : i ≤ i * i := by
      cases i with
      | zero => simp
      | succ m => exact Nat.le_mul_of_pos_left _ (Nat.succ_pos m)
    omega

/-- The whole computation of `main` for a given bound `n` and worker count `W`
(omp-sieve.c lines 205-218): allocate `n+1` flags all set, start from
`nprimes = n - 1`, run the driver loop.  The count is an integer because the
C program stores it in a `long` initialized to `n - 1` (which is `-1` when
`n = 0`). -/
def sieve (n W : Nat) : Int :=
  sieveAux (Array.mkArray (n + 1) true) 2 n W ((n : Int) - 1)

/-- The range guard of `main` (omp-sieve.c lines 200-203): inputs larger than
`1ul << 31` are refused with a fatal error before the flag buffer is
allocated and before any computation is attempted. -/
def runSieve (n W : Nat) : Except String Int :=
  if n > 2 ^ 31 then
    Except.error "FATAL: n too large"
  else
    Except.ok (sieve n W)

/-! ### Kernel-evaluable twin

`sieveFast` recomputes the sieve on a single natural number `c` whose bit `m`
says that `m` has been marked composite.  One round of `mark` with stride `i`
is one bitwise-or with the geometric-series mask `Σ_{j<K} 2^(i*i + j*i)`, and
the final count of marked bits is taken by summing, for each offset `j < k`,
the base-`2^k` digits of the bits of `c` in positions `≡ j (mod k)`. -/

/-- Twin of the driver loop on the composite-bits mask `c`.  Bit `m` of `c`
is set exactly when flag `m` of the array has been cleared, so the round for
`i` is skipped when bit `i` is set, and otherwise ors in the mask of the
`K = ⌈(n+1-i*i)/i⌉` multiples of `i` in `[i*i, n+1)`. -/
def sieveMask (n : Nat) : Nat → Nat → Nat → Nat
  | 0, _, c => c
  | fuel + 1, i, c =>
    if i * i ≤ n then
      if c.testBit i then
        sieveMask n fuel (i + 1) c
      else
        let K := (n + i - i * i) / i
        let M := ((1 <<< (K * i) - 1) / (1 <<< i - 1)) <<< (i * i)
        sieveMask n fuel (i + 1) (c ||| M)
    else
      c

/-- Strided bit count: `popStride k B c j` sums, over the offsets
`j' < j`, the base-`2^k` digit sums of `(c >>> j') &&& mask` where `mask`
has one bit in each of `B` fields of width `k`.  When every such digit sum
is `< 2^k - 1` this counts the set bits of `c` in positions `< k*B`. -/
def popStride (k B c : Nat) : Nat → Nat
  | 0 => 0
  | j + 1 =>
    popStride k B c j +
      (((c >>> j) &&& ((1 <<< (k * B) - 1) / (1 <<< k - 1))) % (1 <<< k - 1))

/-- Kernel-evaluable twin of `sieve n W`: run the mask rounds, then subtract
the number of marked bits from `n - 1`.  Parameters `k` and `B` must satisfy
`n + 1 ≤ k * B` and `B < 2^k - 1` for the strided count to be exact. -/
def sieveFast (k B n : Nat) : Int :=
  (n : Int) - 1 - (popStride k B (sieveMask n (n + 1) 2 0) k : Int)

/-! ### Specification-side definitions used by the proofs -/

/-- `Σ_{j<K} 2^(j*p)`: recursive form of the geometric-series bit mask. -/
def maskRec (p : Nat) : Nat → Nat
  | 0 => 0
  | K + 1 => maskRec p K + 2 ^ (K * p)

/-- Sum of the first `f` base-`2^k` digits of `x`. -/
def sumDigits (k : Nat) : Nat → Nat → Nat
  | 0, _ => 0
  | f + 1, x => x % 2 ^ k + sumDigits k f (x / 2 ^ k)

/-- Number of set bits of `c` in positions `< N`. -/
def bitsCard (N c : Nat) : Nat :=
  ((Finset.range N).filter (fun i => c.testBit i = true)).card

/-- `Marked i m` says that the driver rounds for seeds `< i` have cleared
flag `m`: some seed `j ∈ [2, i)` divides `m` and `j*j ≤ m`. -/
def Marked (i m : Nat) : Prop := ∃ j, 2 ≤ j ∧ j < i ∧ j ∣ m ∧ j * j ≤ m

instance (i m : Nat) : Decidable (Marked i m) :=
  decidable_of_iff (((Finset.Ico 2 i).filter (fun j => j ∣ m ∧ j * j ≤ m)).Nonempty) (by
    rw [Finset.filter_nonempty_iff]
    simp only [Finset.mem_Ico, Marked, and_assoc])

/-- The set of flags `≤ n` cleared after the rounds for seeds `< i`. -/
def markedSet (i n : Nat) : Finset Nat := (Finset.range (n + 1)).filter (Marked i)

/-- π(n): the number of primes in `{0, …, n}` (equivalently in `{2, …, n}`). -/
def primeCount (n : Nat) : Nat := ((Finset.range (n + 1)).filter Nat.Prime).card

/-! ### Array access lemmas -/

theorem getD_setD_false (a : Array Bool) (x i : Nat) :
    (a.setD x false).getD i false = if i = x then false else a.getD i false := by
  by_cases hx : x < a.size
  · by_cases hix : i = x
    · subst hix
      rw [if_pos rfl, Array.getD_eq_get?, Array.getElem?_setD_eq a hx false]
      rfl
    · have heq : (a.setD x false)[i]? = a[i]? := by
        unfold Array.setD
        rw [dif_pos hx]
        exact Array.getElem?_set_ne a _ false (fun h => hix h.symm)
      rw [Array.getD_eq_get?, Array.getD_eq_get?, heq, if_neg hix]
  · have hxx : a.setD x false = a := by
      unfold Array.setD
      rw [dif_neg hx]
    rw [hxx]
    by_cases hix : i = x
    · subst hix
      rw [if_pos rfl, Array.getD_eq_get?, Array.getElem?_len_le a (Nat.le_of_not_lt hx)]
      rfl
    · rw [if_neg hix]

theorem getD_true_lt_size (a : Array Bool) (i : Nat) (h : a.getD i false = true) :
    i < a.size := by
  by_contra hi
  rw [Array.getD_eq_get?, Array.getElem?_len_le a (Nat.le_of_not_lt hi)] at h
  exact Bool.false_ne_true h

/-! ### The marking loop of one worker -/

theorem markLoop_size (a : Array Bool) (x til p : Nat) :
    (markLoop a x til p).1.size = a.size := by
  induction a, x, til, p using markLoop.induct with
  | case1 a x til p h hb ih =>
    rw [markLoop, dif_pos h, if_pos hb]
    show (markLoop (a.setD x false) (x + p) til p).1.size = a.size
    rw [ih, Array.size_setD]
  | case2 a x til p h hb ih =>
    rw [markLoop, dif_pos h, if_neg hb]
    exact ih
  | case3 a x til p h =>
    rw [markLoop, dif_neg h]

theorem visited_step (x i p : Nat) (hp : 0 < p) (hne : i ≠ x) :
    ((x + p ≤ i) ∧ p ∣ (i - (x + p))) ↔ ((x ≤ i) ∧ p ∣ (i - x)) := by
  constructor
  · rintro ⟨h1, h2⟩
    refine ⟨by omega, ?_⟩
    have he : i - x = (i - (x + p)) + p := by omega
    rw [he]
    exact Nat.dvd_add h2 dvd_rfl
  · rintro ⟨h1, h2⟩
    have hlt : x < i := lt_of_le_of_ne h1 (Ne.symm hne)
    have hpos : 0 < i - x := by omega
    have hle : p ≤ i - x := Nat.le_of_dvd hpos h2
    have h3 : x + p ≤ i := by omega
    refine ⟨h3, ?_⟩
    have he : i - (x + p) = (i - x) - p := by omega
    rw [he]
    exact Nat.dvd_sub' h2 dvd_rfl

theorem markLoop_getD (a : Array Bool) (x til p : Nat) (hp : 0 < p) (i : Nat) :
    (markLoop a x til p).1.getD i false =
      (a.getD i false &&
        !(decide (x ≤ i) && decide (i < til) && decide (p ∣ (i - x)))) := by
  induction a, x, til, p using markLoop.induct with
  | case1 a x til p h hb ih =>
    rw [markLoop, dif_pos h, if_pos hb]
    show (markLoop (a.setD x false) (x + p) til p).1.getD i false = _
    rw [ih h.2]
    by_cases hix : i = x
    · subst hix
      rw [getD_setD_false]
      simp [h.1, hb, Nat.le_refl]
    · rw [getD_setD_false, if_neg hix]
      by_cases hv : (x + p ≤ i) ∧ p ∣ (i - (x + p))
      · have hv' : (x ≤ i) ∧ p ∣ (i - x) := (visited_step x i p h.2 hix).1 hv
        simp [hv.1, hv.2, hv'.1, hv'.2]
      · have hv' : ¬ ((x ≤ i) ∧ p ∣ (i - x)) := fun hc =>
          hv ((visited_step x i p h.2 hix).2 hc)
      
        by_cases hil : i < til
        · by_cases hxi : x + p ≤ i
          · by_cases hdi : p ∣ (i - (x + p))
            · exact absurd ⟨hxi, hdi⟩ hv
            · by_cases hxi0 : x ≤ i
              · by_cases hdi0 : p ∣ (i - x)
                · exact absurd ⟨hxi0, hdi0⟩ hv'
                · simp [hxi, hdi, hxi0, hdi0]
              · simp [hxi, hdi, hxi0]
          · by_cases hxi0 : x ≤ i
            · by_cases hdi0 : p ∣ (i - x)
              · exact absurd ⟨hxi0, hdi0⟩ hv'
              · simp [hxi, hxi0, hdi0]
            · simp [hxi, hxi0]
        · simp [hil]
  | case2 a x til p h hb ih =>
    rw [markLoop, dif_pos h, if_neg hb]
    rw [ih h.2]
    by_cases hix : i = x
    · subst hix
      have hfalse : a.getD i false = false := by
        simpa using hb
      simp [hfalse]
    · by_cases hv : (x + p ≤ i) ∧ p ∣ (i - (x + p))
      · have hv' : (x ≤ i) ∧ p ∣ (i - x) := (visited_step x i p h.2 hix).1 hv
        simp [hv.1, hv.2, hv'.1, hv'.2]
      · have hv' : ¬ ((x ≤ i) ∧ p ∣ (i - x)) := fun hc =>
          hv ((visited_step x i p h.2 hix).2 hc)
        by_cases hil : i < til
        · by_cases hxi : x + p ≤ i
          · by_cases hdi : p ∣ (i - (x + p))
            · exact absurd ⟨hxi, hdi⟩ hv
            · by_cases hxi0 : x ≤ i
              · by_cases hdi0 : p ∣ (i - x)
                · exact absurd ⟨hxi0, hdi0⟩ hv'
                · simp [hxi, hdi, hxi0, hdi0]
              · simp [hxi, hdi, hxi0]
          · by_cases hxi0 : x ≤ i
            · by_cases hdi0 : p ∣ (i - x)
              · exact absurd ⟨hxi0, hdi0⟩ hv'
              · simp [hxi, hxi0, hdi0]
            · simp [hxi, hxi0]
        · simp [hil]
  | case3 a x til p h =>
    rw [markLoop, dif_neg h]
    have h' : ¬ (x < til ∧ 0 < p) := h
    by_cases hxt : x < til
    · exact absurd ⟨hxt, hp⟩ h'
    · by_cases hxi : x ≤ i
      · have : ¬ i < til := by omega
        simp [this]
      · simp [hxi]

theorem filter_setD_eq (a : Array Bool) (x til p : Nat) (hp : 0 < p) :
    ((Finset.Ico (x + p) til).filter
      (fun i => p ∣ (i - (x + p)) ∧ (a.setD x false).getD i false = true)) =
    ((Finset.Ico (x + p) til).filter
      (fun i => p ∣ (i - (x + p)) ∧ a.getD i false = true)) := by
  apply Finset.filter_congr
  intro i hi
  rw [Finset.mem_Ico] at hi
  have hix : i ≠ x := by omega
  rw [getD_setD_false, if_neg hix]

theorem filter_step_set (a : Array Bool) (x til p : Nat) (hp : 0 < p) (hx : x < til) :
    (Finset.Ico x til).filter (fun i => p ∣ (i - x) ∧ a.getD i false = true) =
      ((Finset.Ico (x + p) til).filter
        (fun i => p ∣ (i - (x + p)) ∧ a.getD i false = true)) ∪
        (if a.getD x false = true then {x} else ∅) := by
  by_cases hax : a.getD x false = true
  · rw [if_pos hax]
    ext i
    simp only [Finset.mem_filter, Finset.mem_Ico, Finset.mem_union, Finset.mem_singleton]
    constructor
    · rintro ⟨⟨h1, h2⟩, hdvd, hai⟩
      by_cases hix : i = x
      · exact Or.inr hix
      · left
        have hv := (visited_step x i p hp hix).2 ⟨h1, hdvd⟩
        exact ⟨⟨hv.1, h2⟩, hv.2, hai⟩
    · rintro (⟨⟨h1, h2⟩, hdvd, hai⟩ | hix)
      · have hix : i ≠ x := by omega
        have hv := (visited_step x i p hp hix).1 ⟨h1, hdvd⟩
        exact ⟨⟨hv.1, h2⟩, hv.2, hai⟩
      · subst hix
        exact ⟨⟨le_refl _, hx⟩, by simp, hax⟩
  · rw [if_neg hax, Finset.union_empty]
    ext i
    simp only [Finset.mem_filter, Finset.mem_Ico]
    constructor
    · rintro ⟨⟨h1, h2⟩, hdvd, hai⟩
      have hix : i ≠ x := by
        intro hc
        subst hc
        exact hax hai
      have hv := (visited_step x i p hp hix).2 ⟨h1, hdvd⟩
      exact ⟨⟨hv.1, h2⟩, hv.2, hai⟩
    · rintro ⟨⟨h1, h2⟩, hdvd, hai⟩
      have hix : i ≠ x := by omega
      have hv := (visited_step x i p hp hix).1 ⟨h1, hdvd⟩
      exact ⟨⟨hv.1, h2⟩, hv.2, hai⟩

theorem markLoop_count (a : Array Bool) (x til p : Nat) (hp : 0 < p) :
    (markLoop a x til p).2 =
      ((Finset.Ico x til).filter
        (fun i => p ∣ (i - x) ∧ a.getD i false = true)).card := by
  induction a, x, til, p using markLoop.induct with
  | case1 a x til p h hb ih =>
    rw [markLoop, dif_pos h, if_pos hb]
    show (markLoop (a.setD x false) (x + p) til p).2 + 1 = _
    rw [ih h.2, filter_setD_eq a x til p h.2, filter_step_set a x til p h.2 h.1, if_pos hb]
    have hdisj : Disjoint
        ((Finset.Ico (x + p) til).filter
          (fun i => p ∣ (i - (x + p)) ∧ a.getD i false = true)) ({x} : Finset Nat) := by
      refine Finset.disjoint_singleton_right.mpr ?_
      simp only [Finset.mem_filter, Finset.mem_Ico]
      rintro ⟨⟨hc, _⟩, _⟩
      omega
    rw [Finset.card_union_of_disjoint hdisj, Finset.card_singleton]
  | case2 a x til p h hb ih =>
    rw [markLoop, dif_pos h, if_neg hb]
    rw [ih h.2, filter_step_set a x til p h.2 h.1, if_neg hb, Finset.union_empty]
  | case3 a x til p h =>
    rw [markLoop, dif_neg h]
    have hxt : ¬ x < til := fun hc => h ⟨hc, hp⟩
    rw [Finset.Ico_eq_empty hxt]
    simp

/-! ### Alignment to the lowest multiple of `p` -/

theorem alignUp_dvd (x p : Nat) : p ∣ alignUp x p :=
  ⟨(x + p - 1) / p, Nat.mul_comm _ _⟩

theorem le_alignUp (x p : Nat) (hp : 0 < p) : x ≤ alignUp x p := by
  unfold alignUp
  have h1 := Nat.div_add_mod (x + p - 1) p
  have h2 : (x + p - 1) % p < p := Nat.mod_lt _ hp
  rw [Nat.mul_comm]
  generalize hpq : p * ((x + p - 1) / p) = s at h1 ⊢
  omega

theorem alignUp_le_of_dvd (x p m : Nat) (hp : 0 < p) (hm : p ∣ m) (hxm : x ≤ m) :
    alignUp x p ≤ m := by
  obtain ⟨c, rfl⟩ := hm
  unfold alignUp
  have h1 : x + p - 1 ≤ p * c + (p - 1) := by omega
  have h2 : (x + p - 1) / p ≤ (p * c + (p - 1)) / p := Nat.div_le_div_right h1
  have h3 : (p * c + (p - 1)) / p = c := by
    have he : p * c + (p - 1) = (p - 1) + c * p := by ring
    rw [he, Nat.add_mul_div_right _ _ hp, Nat.div_eq_of_lt (by omega : p - 1 < p)]
    omega
  have h4 : (x + p - 1) / p ≤ c := h3 ▸ h2
  calc ((x + p - 1) / p) * p ≤ c * p := Nat.mul_le_mul_right p h4
    _ = p * c := Nat.mul_comm c p

theorem aligned_visited (L p i : Nat) (hp : 0 < p) :
    ((alignUp L p ≤ i) ∧ p ∣ (i - alignUp L p)) ↔ (L ≤ i ∧ p ∣ i) := by
  have hd := alignUp_dvd L p
  constructor
  · rintro ⟨h1, h2⟩
    have hi : p ∣ i := by
      have he : i = (i - alignUp L p) + alignUp L p := by omega
      rw [he]
      exact Nat.dvd_add h2 hd
    exact ⟨le_trans (le_alignUp L p hp) h1, hi⟩
  · rintro ⟨h1, h2⟩
    have hA : alignUp L p ≤ i := alignUp_le_of_dvd L p i hp h2 h1
    exact ⟨hA, Nat.dvd_sub' h2 hd⟩

/-! ### One worker -/

theorem markWorker_size (a : Array Bool) (frm til p W id : Nat) :
    (markWorker a frm til p W id).1.size = a.size :=
  markLoop_size _ _ _ _

theorem markWorker_getD (a : Array Bool) (frm til p W id : Nat) (hp : 0 < p) (i : Nat) :
    (markWorker a frm til p W id).1.getD i false =
      (a.getD i false &&
        !(decide (subFrom frm til W id ≤ i) && decide (i < subTo frm til W id) &&
          decide (p ∣ i))) := by
  unfold markWorker
  rw [markLoop_getD _ _ _ _ hp i]
  have hiff : (alignUp (subFrom frm til W id) p ≤ i ∧ i < subTo frm til W id ∧
      p ∣ (i - alignUp (subFrom frm til W id) p)) ↔
      (subFrom frm til W id ≤ i ∧ i < subTo frm til W id ∧ p ∣ i) := by
    constructor
    · rintro ⟨h1, h2, h3⟩
      have hv := (aligned_visited _ p i hp).1 ⟨h1, h3⟩
      exact ⟨hv.1, h2, hv.2⟩
    · rintro ⟨h1, h2, h3⟩
      have hv := (aligned_visited _ p i hp).2 ⟨h1, h3⟩
      exact ⟨hv.1, h2, hv.2⟩
  have hb : (decide (alignUp (subFrom frm til W id) p ≤ i) && decide (i < subTo frm til W id)
        && decide (p ∣ (i - alignUp (subFrom frm til W id) p)))
      = (decide (subFrom frm til W id ≤ i) && decide (i < subTo frm til W id)
        && decide (p ∣ i)) := by
    rw [Bool.and_assoc, Bool.and_assoc, ← Bool.decide_and, ← Bool.decide_and,
      ← Bool.decide_and, ← Bool.decide_and]
    exact decide_eq_decide.mpr hiff
  rw [hb]

theorem markWorker_count (a : Array Bool) (frm til p W id : Nat) (hp : 0 < p) :
    (markWorker a frm til p W id).2 =
      ((Finset.Ico (subFrom frm til W id) (subTo frm til W id)).filter
        (fun i => p ∣ i ∧ a.getD i false = true)).card := by
  unfold markWorker
  rw [markLoop_count _ _ _ _ hp]
  apply congrArg Finset.card
  ext i
  simp only [Finset.mem_filter, Finset.mem_Ico]
  constructor
  · rintro ⟨⟨h1, h2⟩, h3, h4⟩
    have hv := (aligned_visited _ p i hp).1 ⟨h1, h3⟩
    exact ⟨⟨hv.1, h2⟩, hv.2, h4⟩
  · rintro ⟨⟨h1, h2⟩, h3, h4⟩
    have hv := (aligned_visited _ p i hp).2 ⟨h1, h3⟩
    exact ⟨⟨hv.1, h2⟩, hv.2, h4⟩

/-! ### The sub-range partition -/

theorem subTo_eq_subFrom_succ (frm til W id : Nat) :
    subTo frm til W id = subFrom frm til W (id + 1) := rfl

theorem subFrom_zero (frm til W : Nat) : subFrom frm til W 0 = frm := by
  simp [subFrom]

theorem frm_le_subFrom (frm til W id : Nat) : frm ≤ subFrom frm til W id :=
  Nat.le_add_right _ _

theorem subFrom_mono (frm til W : Nat) {id1 id2 : Nat} (h : id1 ≤ id2) :
    subFrom frm til W id1 ≤ subFrom frm til W id2 := by
  unfold subFrom
  have hm := Nat.div_le_div_right (c := W) (Nat.mul_le_mul_left (til - frm) h)
  omega

theorem subFrom_W (frm til W : Nat) (hW : 0 < W) (hft : frm ≤ til) :
    subFrom frm til W W = til := by
  unfold subFrom
  rw [Nat.mul_div_cancel _ hW]
  omega

theorem mark_eq_markUpTo (a : Array Bool) (frm til p W : Nat) :
    mark a frm til p W = markUpTo a frm til p W W := rfl

theorem markUpTo_succ (a : Array Bool) (frm til p W k : Nat) :
    markUpTo a frm til p W (k + 1) =
      ((markWorker (markUpTo a frm til p W k).1 frm til p W k).1,
       (markUpTo a frm til p W k).2 +
         (markWorker (markUpTo a frm til p W k).1 frm til p W k).2) := by
  unfold markUpTo
  rw [List.range_succ, List.foldl_append]
  rfl

theorem markUpTo_size (a : Array Bool) (frm til p W k : Nat) :
    (markUpTo a frm til p W k).1.size = a.size := by
  induction k with
  | zero => rfl
  | succ k ih =>
    rw [markUpTo_succ]
    show (markWorker (markUpTo a frm til p W k).1 frm til p W k).1.size = a.size
    rw [markWorker_size]
    exact ih

theorem interval_mask_merge (frm L M i p : Nat) (h1 : frm ≤ L) (h2 : L ≤ M) (b : Bool) :
    ((b && !(decide (frm ≤ i) && decide (i < L) && decide (p ∣ i))) &&
      !(decide (L ≤ i) && decide (i < M) && decide (p ∣ i))) =
    (b && !(decide (frm ≤ i) && decide (i < M) && decide (p ∣ i))) := by
  by_cases hpi : p ∣ i
  · by_cases ha : frm ≤ i
    · by_cases hb : i < L
      · have hc : i < M := by omega
        have hL : L ≤ i ∨ ¬ L ≤ i := em _
        simp [hpi, ha, hb, hc]
      · by_cases hc : i < M
        · have hL : L ≤ i := by omega
          simp [hpi, ha, hb, hc, hL]
        · simp [hpi, ha, hb, hc]
    · have hnL : ¬ L ≤ i := by omega
      simp [ha, hnL]
  · simp [hpi]

theorem markUpTo_spec (a : Array Bool) (frm til p W : Nat) (hp : 0 < p) (k : Nat) :
    (∀ i, (markUpTo a frm til p W k).1.getD i false =
      (a.getD i false &&
        !(decide (frm ≤ i) && decide (i < subFrom frm til W k) && decide (p ∣ i)))) ∧
    (markUpTo a frm til p W k).2 =
      ((Finset.Ico frm (subFrom frm til W k)).filter
        (fun i => p ∣ i ∧ a.getD i false = true)).card := by
  induction k with
  | zero =>
    rw [show markUpTo a frm til p W 0 = (a, 0) from rfl]
    refine ⟨?_, ?_⟩
    · intro i
      rw [subFrom_zero]
      by_cases h1 : frm ≤ i
      · have h2 : ¬ i < frm := by omega
        simp [h2]
      · simp [h1]
    · rw [subFrom_zero]
      simp
  | succ k ih =>
    obtain ⟨ihptw, ihcnt⟩ := ih
    have hfL : frm ≤ subFrom frm til W k := frm_le_subFrom frm til W k
    have hLM : subFrom frm til W k ≤ subFrom frm til W (k + 1) :=
      subFrom_mono frm til W (Nat.le_succ k)
    constructor
    · intro i
      rw [markUpTo_succ]
      show (markWorker (markUpTo a frm til p W k).1 frm til p W k).1.getD i false = _
      rw [markWorker_getD _ _ _ _ _ _ hp i, ihptw i, subTo_eq_subFrom_succ]
      exact interval_mask_merge frm _ _ i p hfL hLM _
    · rw [markUpTo_succ]
      show (markUpTo a frm til p W k).2 +
          (markWorker (markUpTo a frm til p W k).1 frm til p W k).2 = _
      rw [ihcnt, markWorker_count _ _ _ _ _ _ hp, subTo_eq_subFrom_succ]
      have hset : (Finset.Ico (subFrom frm til W k) (subFrom frm til W (k + 1))).filter
            (fun i => p ∣ i ∧ (markUpTo a frm til p W k).1.getD i false = true) =
          (Finset.Ico (subFrom frm til W k) (subFrom frm til W (k + 1))).filter
            (fun i => p ∣ i ∧ a.getD i false = true) := by
        apply Finset.filter_congr
        intro i hi
        rw [Finset.mem_Ico] at hi
        rw [ihptw i]
        have hni : ¬ i < subFrom frm til W k := by omega
        simp [hni]
      rw [hset]
      have hdisj : Disjoint
          ((Finset.Ico frm (subFrom frm til W k)).filter
            (fun i => p ∣ i ∧ a.getD i false = true))
          ((Finset.Ico (subFrom frm til W k) (subFrom frm til W (k + 1))).filter
            (fun i => p ∣ i ∧ a.getD i false = true)) :=
        Finset.disjoint_filter_filter
          (Finset.Ico_disjoint_Ico_consecutive frm _ _)
      rw [← Finset.card_union_of_disjoint hdisj, ← Finset.filter_union,
        Finset.Ico_union_Ico_eq_Ico hfL hLM]

/-! ### The characterization of `mark` -/

theorem mark_size (a : Array Bool) (frm til p W : Nat) :
    (mark a frm til p W).1.size = a.size := by
  rw [mark_eq_markUpTo]
  exact markUpTo_size a frm til p W W

theorem mark_getD (a : Array Bool) (frm til p W : Nat) (hp : 0 < p) (hW : 0 < W)
    (hft : frm ≤ til) (i : Nat) :
    (mark a frm til p W).1.getD i false =
      (a.getD i false && !(decide (frm ≤ i) && decide (i < til) && decide (p ∣ i))) := by
  rw [mark_eq_markUpTo]
  have h := (markUpTo_spec a frm til p W hp W).1 i
  rw [subFrom_W frm til W hW hft] at h
  exact h

theorem mark_count (a : Array Bool) (frm til p W : Nat) (hp : 0 < p) (hW : 0 < W)
    (hft : frm ≤ til) :
    (mark a frm til p W).2 =
      ((Finset.Ico frm til).filter (fun i => p ∣ i ∧ a.getD i false = true)).card := by
  rw [mark_eq_markUpTo]
  have h := (markUpTo_spec a frm til p W hp W).2
  rw [subFrom_W frm til W hW hft] at h
  exact h

/-! ### Monotonicity: a cleared flag stays cleared -/

theorem markLoop_mono (a : Array Bool) (x til p i : Nat)
    (h : (markLoop a x til p).1.getD i false = true) : a.getD i false = true := by
  induction a, x, til, p using markLoop.induct with
  | case1 a x til p hg hb ih =>
    rw [markLoop, dif_pos hg, if_pos hb] at h
    have h' : (markLoop (a.setD x false) (x + p) til p).1.getD i false = true := h
    have h2 := ih h'
    rw [getD_setD_false] at h2
    by_cases hix : i = x
    · rw [if_pos hix] at h2
      exact absurd h2 (by simp)
    · rwa [if_neg hix] at h2
  | case2 a x til p hg hb ih =>
    rw [markLoop, dif_pos hg, if_neg hb] at h
    exact ih h
  | case3 a x til p hg =>
    rw [markLoop, dif_neg hg] at h
    exact h

theorem markUpTo_mono (a : Array Bool) (frm til p W k i : Nat)
    (h : (markUpTo a frm til p W k).1.getD i false = true) : a.getD i false = true := by
  induction k with
  | zero => exact h
  | succ k ih =>
    rw [markUpTo_succ] at h
    have h' : (markLoop (markUpTo a frm til p W k).1
        (alignUp (subFrom frm til W k) p) (subTo frm til W k) p).1.getD i false = true := h
    exact ih (markLoop_mono _ _ _ _ _ h')

theorem mark_mono (a : Array Bool) (frm til p W i : Nat)
    (h : (mark a frm til p W).1.getD i false = true) : a.getD i false = true :=
  markUpTo_mono a frm til p W W i h

/-! ### Worker-count independence -/

theorem markUpTo_p_zero (a : Array Bool) (frm til W k : Nat) :
    markUpTo a frm til 0 W k = (a, 0) := by
  induction k with
  | zero => rfl
  | succ k ih =>
    rw [markUpTo_succ, ih]
    have hw : markWorker a frm til 0 W k = (a, 0) := by
      unfold markWorker
      rw [markLoop, dif_neg (by simp)]
    rw [hw]
    rfl

theorem mark_W_indep (a : Array Bool) (frm til p W1 W2 : Nat)
    (hW1 : 0 < W1) (hW2 : 0 < W2) (hft : frm ≤ til) :
    mark a frm til p W1 = mark a frm til p W2 := by
  by_cases hp : 0 < p
  · have harr : (mark a frm til p W1).1 = (mark a frm til p W2).1 := by
      apply Array.ext
      · rw [mark_size, mark_size]
      · intro i h1 h2
        have hg : (mark a frm til p W1).1.getD i false =
            (mark a frm til p W2).1.getD i false := by
          rw [mark_getD _ _ _ _ _ hp hW1 hft i, mark_getD _ _ _ _ _ hp hW2 hft i]
        rw [Array.getD_eq_get?, Array.getD_eq_get?, Array.getElem?_lt _ h1,
          Array.getElem?_lt _ h2] at hg
        simpa using hg
    have hcnt : (mark a frm til p W1).2 = (mark a frm til p W2).2 := by
      rw [mark_count _ _ _ _ _ hp hW1 hft, mark_count _ _ _ _ _ hp hW2 hft]
    exact Prod.ext harr hcnt
  · have hp0 : p = 0 := by omega
    subst hp0
    rw [mark_eq_markUpTo, mark_eq_markUpTo, markUpTo_p_zero, markUpTo_p_zero]

theorem sieveAux_W_indep (n W1 W2 : Nat) (hW1 : 0 < W1) (hW2 : 0 < W2) :
    ∀ g i (a : Array Bool) (np : Int), n + 1 - i ≤ g →
      sieveAux a i n W1 np = sieveAux a i n W2 np := by
  intro g
  induction g with
  | zero =>
    intro i a np hg
    have hi : ¬ i * i ≤ n := by
      have h1 : n + 1 ≤ i := by omega
      have h2 : i ≤ i * i := Nat.le_mul_of_pos_left _ (by omega)
      omega
    conv_lhs => rw [sieveAux]
    conv_rhs => rw [sieveAux]
    rw [if_neg hi, if_neg hi]
  | succ g ih =>
    intro i a np hg
    conv_lhs => rw [sieveAux]
    conv_rhs => rw [sieveAux]
    by_cases hi : i * i ≤ n
    · by_cases hb : a.getD i false = true
      · rw [if_pos hi, if_pos hi, if_pos hb, if_pos hb]
        show sieveAux (mark a (i * i) (n + 1) i W1).1 (i + 1) n W1
            (np - ((mark a (i * i) (n + 1) i W1).2 : Int)) =
          sieveAux (mark a (i * i) (n + 1) i W2).1 (i + 1) n W2
            (np - ((mark a (i * i) (n + 1) i W2).2 : Int))
        have hm : mark a (i * i) (n + 1) i W1 = mark a (i * i) (n + 1) i W2 :=
          mark_W_indep a (i * i) (n + 1) i W1 W2 hW1 hW2 (by omega)
        rw [hm]
        exact ih (i + 1) _ _ (by omega)
      · rw [if_pos hi, if_pos hi, if_neg hb, if_neg hb]
        exact ih (i + 1) a np (by omega)
    · rw [if_neg hi, if_neg hi]

/-! ### Block decomposition facts for claim C3 -/

theorem blocks_disjoint (frm til W : Nat) {id1 id2 : Nat} (h : id1 < id2) :
    Disjoint (Finset.Ico (subFrom frm til W id1) (subTo frm til W id1))
             (Finset.Ico (subFrom frm til W id2) (subTo frm til W id2)) := by
  rw [Finset.disjoint_left]
  intro x hx1 hx2
  rw [Finset.mem_Ico] at hx1 hx2
  have hchain : subTo frm til W id1 ≤ subFrom frm til W id2 := by
    rw [subTo_eq_subFrom_succ]
    exact subFrom_mono frm til W h
  omega

theorem blocks_biUnion (frm til W : Nat) (k : Nat) :
    (Finset.range k).biUnion
        (fun id => Finset.Ico (subFrom frm til W id) (subTo frm til W id)) =
      Finset.Ico frm (subFrom frm til W k) := by
  induction k with
  | zero =>
    rw [subFrom_zero]
    simp
  | succ k ih =>
    rw [Finset.range_succ, Finset.biUnion_insert, ih, Finset.union_comm,
      subTo_eq_subFrom_succ,
      Finset.Ico_union_Ico_eq_Ico (frm_le_subFrom frm til W k)
        (subFrom_mono frm til W (Nat.le_succ k))]

theorem blocks_sum (frm til W : Nat) (k : Nat) :
    (∑ id ∈ Finset.range k, (subTo frm til W id - subFrom frm til W id)) =
      subFrom frm til W k - frm := by
  induction k with
  | zero =>
    rw [subFrom_zero]
    simp
  | succ k ih =>
    rw [Finset.sum_range_succ, ih, subTo_eq_subFrom_succ]
    have h1 := frm_le_subFrom frm til W k
    have h2 : subFrom frm til W k ≤ subFrom frm til W (k + 1) :=
      subFrom_mono frm til W (by omega)
    omega

/-! ### The `Marked` predicate -/

theorem Marked_succ_iff (i m : Nat) :
    Marked (i + 1) m ↔ Marked i m ∨ (2 ≤ i ∧ i ∣ m ∧ i * i ≤ m) := by
  constructor
  · rintro ⟨j, hj2, hji, hjd, hjs⟩
    by_cases hj : j = i
    · subst hj
      exact Or.inr ⟨hj2, hjd, hjs⟩
    · exact Or.inl ⟨j, hj2, by omega, hjd, hjs⟩
  · rintro (⟨j, hj2, hji, hjd, hjs⟩ | ⟨h2, hd, hs⟩)
    · exact ⟨j, hj2, by omega, hjd, hjs⟩
    · exact ⟨i, h2, by omega, hd, hs⟩

theorem Marked_two (m : Nat) : ¬ Marked 2 m := by
  rintro ⟨j, hj2, hji, _, _⟩
  omega

theorem Marked_not_prime {i m : Nat} (h : Marked i m) : ¬ m.Prime := by
  obtain ⟨j, hj2, _, hjd, hjs⟩ := h
  intro hp
  rcases (Nat.Prime.eq_one_or_self_of_dvd hp j hjd) with h1 | h1
  · omega
  · subst h1
    have h4 := hp.two_le
    nlinarith

theorem Marked_two_le {i m : Nat} (h : Marked i m) : 2 ≤ m := by
  obtain ⟨j, hj2, _, _, hjs⟩ := h
  nlinarith

theorem composite_Marked {i m : Nat} (h2 : 2 ≤ m) (hnp : ¬ m.Prime) (hsq : m < i * i) :
    Marked i m := by
  have hm0 : 0 < m := by omega
  have hne : m ≠ 1 := by omega
  have hq := Nat.minFac_prime hne
  refine ⟨m.minFac, hq.two_le, ?_, Nat.minFac_dvd m, ?_⟩
  · by_contra hc
    have hile : i ≤ m.minFac := Nat.le_of_not_lt hc
    have h4 : i * i ≤ m.minFac * m.minFac := Nat.mul_le_mul hile hile
    have h5 : m.minFac * m.minFac ≤ m := by
      have := Nat.minFac_sq_le_self hm0 (by
        intro hc2
        exact hnp hc2)
      simpa [pow_two] using this
    omega
  · have := Nat.minFac_sq_le_self hm0 (by
      intro hc2
      exact hnp hc2)
    simpa [pow_two] using this

theorem markedSet_eq_composites (i n : Nat) (h2 : 2 ≤ i) (hni : ¬ i * i ≤ n) :
    markedSet i n = (Finset.range (n + 1)).filter (fun m => 2 ≤ m ∧ ¬ m.Prime) := by
  unfold markedSet
  apply Finset.filter_congr
  intro m hm
  rw [Finset.mem_range] at hm
  constructor
  · intro hM
    exact ⟨Marked_two_le hM, Marked_not_prime hM⟩
  · rintro ⟨hm2, hmp⟩
    have hii : i ≤ i * i := Nat.le_mul_of_pos_left _ (by omega)
    exact composite_Marked hm2 hmp (by omega)

/-! ### Functional correctness of the sieve -/

theorem mark_getD_false_iff (a : Array Bool) (frm til p W : Nat) (hp : 0 < p)
    (hW : 0 < W) (hft : frm ≤ til) (i : Nat) (hi : i < til) :
    ((mark a frm til p W).1.getD i false = false ↔
      (a.getD i false = false ∨ (frm ≤ i ∧ p ∣ i))) := by
  rw [mark_getD a frm til p W hp hW hft i]
  cases hav : a.getD i false <;> by_cases h1 : frm ≤ i <;> by_cases h2 : p ∣ i <;>
    simp [h1, h2, hi]

theorem sieveAux_invariant (n W : Nat) (hW : 0 < W) :
    ∀ g i (a : Array Bool) (np : Int),
      n + 1 - i ≤ g → 2 ≤ i → a.size = n + 1 →
      (∀ m, m ≤ n → (a.getD m false = false ↔ Marked i m)) →
      np = (n : Int) - 1 - ((markedSet i n).card : Int) →
      sieveAux a i n W np =
        (n : Int) - 1 -
          ((((Finset.range (n + 1)).filter (fun m => 2 ≤ m ∧ ¬ m.Prime)).card : Int)) := by
  intro g
  induction g with
  | zero =>
    intro i a np hg h2 hsz hB hnp
    have hni : ¬ i * i ≤ n := by
      have h1 : n + 1 ≤ i := by omega
      have hle : i ≤ i * i := Nat.le_mul_of_pos_left _ (by omega)
      omega
    conv_lhs => rw [sieveAux]
    rw [if_neg hni, hnp, markedSet_eq_composites i n h2 hni]
  | succ g ih =>
    intro i a np hg h2 hsz hB hnp
    by_cases hi : i * i ≤ n
    · conv_lhs => rw [sieveAux]
      rw [if_pos hi]
      have hpi : 0 < i := by omega
      have hft : i * i ≤ n + 1 := by omega
      have hii : i ≤ i * i := Nat.le_mul_of_pos_left _ (by omega)
      by_cases hb : a.getD i false = true
      · rw [if_pos hb]
        show sieveAux (mark a (i * i) (n + 1) i W).1 (i + 1) n W
            (np - ((mark a (i * i) (n + 1) i W).2 : Int)) = _
        have hsz' : (mark a (i * i) (n + 1) i W).1.size = n + 1 := by
          rw [mark_size]
          exact hsz
        have hB' : ∀ m, m ≤ n →
            ((mark a (i * i) (n + 1) i W).1.getD m false = false ↔ Marked (i + 1) m) := by
          intro m hm
          rw [mark_getD_false_iff a (i * i) (n + 1) i W hpi hW hft m (by omega),
            hB m hm, Marked_succ_iff]
          constructor
          · rintro (hM | ⟨hge, hdv⟩)
            · exact Or.inl hM
            · exact Or.inr ⟨h2, hdv, hge⟩
          · rintro (hM | ⟨_, hdv, hge⟩)
            · exact Or.inl hM
            · exact Or.inr ⟨hge, hdv⟩
        have hun : markedSet (i + 1) n =
            markedSet i n ∪
              ((Finset.Ico (i * i) (n + 1)).filter
                (fun m => i ∣ m ∧ a.getD m false = true)) := by
          unfold markedSet
          ext m
          simp only [Finset.mem_union, Finset.mem_filter, Finset.mem_range, Finset.mem_Ico]
          constructor
          · rintro ⟨hm, hMk⟩
            rcases (Marked_succ_iff i m).mp hMk with hM0 | ⟨_, hdv, hge⟩
            · exact Or.inl ⟨hm, hM0⟩
            · by_cases hM0 : Marked i m
              · exact Or.inl ⟨hm, hM0⟩
              · right
                refine ⟨⟨hge, hm⟩, hdv, ?_⟩
                cases hav : a.getD m false
                · exact absurd ((hB m (by omega)).1 hav) hM0
                · rfl
          · rintro (⟨hm, hM0⟩ | ⟨⟨hge, hm⟩, hdv, _⟩)
            · exact ⟨hm, (Marked_succ_iff i m).mpr (Or.inl hM0)⟩
            · exact ⟨by omega, (Marked_succ_iff i m).mpr (Or.inr ⟨h2, hdv, hge⟩)⟩
        have hdisj : Disjoint (markedSet i n)
            ((Finset.Ico (i * i) (n + 1)).filter
              (fun m => i ∣ m ∧ a.getD m false = true)) := by
          rw [Finset.disjoint_right]
          intro m hmD hmA
          rw [Finset.mem_filter, Finset.mem_Ico] at hmD
          rw [markedSet, Finset.mem_filter, Finset.mem_range] at hmA
          have hfalse := (hB m (by omega)).2 hmA.2
          rw [hmD.2.2] at hfalse
          simp at hfalse
        have hM : (markedSet (i + 1) n).card =
            (markedSet i n).card + (mark a (i * i) (n + 1) i W).2 := by
          rw [mark_count a (i * i) (n + 1) i W hpi hW hft, hun,
            Finset.card_union_of_disjoint hdisj]
        apply ih (i + 1) _ _ (by omega) (by omega) hsz' hB'
        rw [hnp, hM]
        push_cast
        ring
      · rw [if_neg hb]
        have hin : i ≤ n := by omega
        have hMi : Marked i i := by
          apply (hB i hin).1
          cases hav : a.getD i false
          · rfl
          · exact absurd hav hb
        have hB' : ∀ m, m ≤ n → (a.getD m false = false ↔ Marked (i + 1) m) := by
          intro m hm
          rw [hB m hm]
          constructor
          · intro h
            exact (Marked_succ_iff i m).mpr (Or.inl h)
          · intro h
            rcases (Marked_succ_iff i m).mp h with h0 | ⟨_, hdv, hge⟩
            · exact h0
            · obtain ⟨j, hj2, hji, hjd, hjs⟩ := hMi
              exact ⟨j, hj2, by omega, hjd.trans hdv, by omega⟩
        have hcard : markedSet (i + 1) n = markedSet i n := by
          unfold markedSet
          apply Finset.filter_congr
          intro m hm
          rw [Finset.mem_range] at hm
          rw [← hB' m (by omega), hB m (by omega)]
        apply ih (i + 1) a np (by omega) (by omega) hsz hB'
        rw [hnp, hcard]
    · conv_lhs => rw [sieveAux]
      rw [if_neg hi, hnp, markedSet_eq_composites i n h2 hi]

theorem mkArray_getD_true (n m : Nat) (hm : m < n) :
    (Array.mkArray n true).getD m false = true := by
  rw [Array.getD_eq_get?, Array.getElem?_lt _ (by simpa using hm)]
  simp

theorem sieve_correct (n W : Nat) (hn : 1 ≤ n) (hW : 0 < W) :
    sieve n W = (primeCount n : Int) := by
  unfold sieve
  rw [sieveAux_invariant n W hW (n + 1) 2 _ _ (by omega) (by omega)
    (by simp) ?_ ?_]
  · -- (n - 1) - #composites = #primes
    have hfilter : (Finset.range (n + 1)).filter Nat.Prime =
        ((Finset.range (n + 1)).filter (fun m => 2 ≤ m)).filter Nat.Prime := by
      rw [Finset.filter_filter]
      apply Finset.filter_congr
      intro m _
      constructor
      · intro h
        exact ⟨h.two_le, h⟩
      · exact fun h => h.2
    have hcomp : (Finset.range (n + 1)).filter (fun m => 2 ≤ m ∧ ¬ m.Prime) =
        ((Finset.range (n + 1)).filter (fun m => 2 ≤ m)).filter (fun m => ¬ m.Prime) := by
      rw [Finset.filter_filter]
    have hcardS : ((Finset.range (n + 1)).filter (fun m => 2 ≤ m)).card = n - 1 := by
      have hS : (Finset.range (n + 1)).filter (fun m => 2 ≤ m) = Finset.Ico 2 (n + 1) := by
        ext m
        simp only [Finset.mem_filter, Finset.mem_range, Finset.mem_Ico]
        omega
      rw [hS, Nat.card_Ico]
      omega
    have hsplit := Finset.filter_card_add_filter_neg_card_eq_card
      (s := (Finset.range (n + 1)).filter (fun m => 2 ≤ m)) (p := Nat.Prime)
    rw [hcardS] at hsplit
    unfold primeCount
    rw [hfilter, hcomp]
    push_cast
    omega
  · intro m hm
    rw [mkArray_getD_true (n + 1) m (by omega)]
    constructor
    · intro h
      exact absurd h (by simp)
    · intro hM
      exact absurd hM (Marked_two m)
  · have hempty : markedSet 2 n = ∅ := by
      unfold markedSet
      apply Finset.filter_false_of_mem
      intro m _
      exact Marked_two m
    rw [hempty]
    simp

theorem primeCount_succ (n : Nat) :
    primeCount (n + 1) = primeCount n + (if Nat.Prime (n + 1) then 1 else 0) := by
  unfold primeCount
  rw [Finset.range_succ, Finset.filter_insert]
  by_cases hp : Nat.Prime (n + 1)
  · rw [if_pos hp, if_pos hp, Finset.card_insert_of_not_mem]
    simp
  · rw [if_neg hp, if_neg hp]
    omega

/-! ### The geometric-series bit mask -/

theorem maskRec_lt (p K : Nat) (hp : 0 < p) : maskRec p K < 2 ^ (K * p) := by
  induction K with
  | zero => simp [maskRec]
  | succ K ih =>
    show maskRec p K + 2 ^ (K * p) < 2 ^ ((K + 1) * p)
    have h1 : 2 ^ (K * p) + 2 ^ (K * p) ≤ 2 ^ ((K + 1) * p) := by
      have h2 : K * p + 1 ≤ (K + 1) * p := by nlinarith
      calc 2 ^ (K * p) + 2 ^ (K * p) = 2 ^ (K * p + 1) := by ring
        _ ≤ 2 ^ ((K + 1) * p) := Nat.pow_le_pow_right (by omega) h2
    omega

theorem testBit_maskRec (p K : Nat) (hp : 0 < p) (i : Nat) :
    (maskRec p K).testBit i = decide (p ∣ i ∧ i < K * p) := by
  induction K with
  | zero => simp [maskRec]
  | succ K ih =>
    have he : maskRec p (K + 1) = 2 ^ (K * p) * 1 + maskRec p K := by
      show maskRec p K + 2 ^ (K * p) = _
      ring
    rw [he, Nat.testBit_mul_pow_two_add 1 (maskRec_lt p K hp) i]
    by_cases hlt : i < K * p
    · rw [if_pos hlt, ih]
      have h2 : i < (K + 1) * p := by nlinarith
      by_cases hdv : p ∣ i
      · simp [hdv, hlt, h2]
      · simp [hdv]
    · rw [if_neg hlt, show (1 : Nat) = 2 ^ 0 from rfl, Nat.testBit_two_pow]
      by_cases heq : i = K * p
      · subst heq
        have hd : p ∣ K * p := Dvd.intro_left K rfl
        have h2 : K * p < (K + 1) * p := by nlinarith
        simp [hd, h2]
      · have hne : ¬ (i - K * p = 0) := by omega
        rw [show (decide (0 = i - K * p)) = false from by
          simp only [decide_eq_false_iff_not]
          omega]
        by_cases hdv : p ∣ i
        · obtain ⟨c, rfl⟩ := hdv
          have hKc : K < c := by
            by_contra hc
            have : p * c ≤ p * K := Nat.mul_le_mul_left p (by omega)
            have hKp : K * p = p * K := Nat.mul_comm _ _
            omega
          have : (K + 1) * p ≤ p * c := by
            calc (K + 1) * p = p * (K + 1) := Nat.mul_comm _ _
              _ ≤ p * c := Nat.mul_le_mul_left p (by omega)
          simp [this, Nat.not_lt_of_le this]
        · simp [hdv]

theorem maskRec_geometric (p K : Nat) (hp : 0 < p) :
    (2 ^ p - 1) * maskRec p K + 1 = 2 ^ (K * p) := by
  induction K with
  | zero => simp [maskRec]
  | succ K ih =>
    have hone : 1 ≤ 2 ^ p := Nat.one_le_two_pow
    calc (2 ^ p - 1) * (maskRec p K + 2 ^ (K * p)) + 1
        = ((2 ^ p - 1) * maskRec p K + 1) + (2 ^ p - 1) * 2 ^ (K * p) := by ring
      _ = 2 ^ (K * p) + (2 ^ p - 1) * 2 ^ (K * p) := by rw [ih]
      _ = (1 + (2 ^ p - 1)) * 2 ^ (K * p) := by ring
      _ = 2 ^ p * 2 ^ (K * p) := by
          rw [show 1 + (2 ^ p - 1) = 2 ^ p from by omega]
      _ = 2 ^ ((K + 1) * p) := by
          rw [← pow_add]
          congr 1
          ring

theorem maskRec_closed (p K : Nat) (hp : 0 < p) :
    maskRec p K = (2 ^ (K * p) - 1) / (2 ^ p - 1) := by
  have hone : 1 ≤ 2 ^ p := Nat.one_le_two_pow
  have hpos : 0 < 2 ^ p - 1 := by
    have h2 : 2 ≤ 2 ^ p := by
      calc 2 = 2 ^ 1 := (pow_one 2).symm
        _ ≤ 2 ^ p := Nat.pow_le_pow_right (by omega) hp
    omega
  have hg := maskRec_geometric p K hp
  symm
  apply Nat.div_eq_of_eq_mul_left hpos
  rw [Nat.mul_comm (maskRec p K) (2 ^ p - 1)]
  omega

/-! ### One round of `sieveMask` -/

theorem mult_bound_iff (n i c : Nat) (hi : 0 < i) (hni : i * i ≤ n) :
    c < (n + i - i * i) / i ↔ i * i + i * c < n + 1 := by
  have hK : (n + i - i * i) / i = (n - i * i) / i + 1 := by
    have he : n + i - i * i = (n - i * i) + i := by omega
    rw [he, Nat.add_div_right _ hi]
  rw [hK]
  constructor
  · intro hc
    have hc2 : c ≤ (n - i * i) / i := by omega
    have h3 := (Nat.le_div_iff_mul_le hi).mp hc2
    rw [Nat.mul_comm c i] at h3
    generalize hg : i * c = t at h3 ⊢
    omega
  · intro hm
    have h3 : c * i ≤ n - i * i := by
      rw [Nat.mul_comm c i]
      generalize hg : i * c = t at hm ⊢
      omega
    have h4 := (Nat.le_div_iff_mul_le hi).mpr h3
    omega

theorem roundMask_testBit (n i : Nat) (hi : 0 < i) (hni : i * i ≤ n) (m : Nat) :
    ((((1 <<< (((n + i - i * i) / i) * i)) - 1) / (1 <<< i - 1)) <<< (i * i)).testBit m =
      decide (i ∣ m ∧ i * i ≤ m ∧ m < n + 1) := by
  rw [Nat.one_shiftLeft, Nat.one_shiftLeft,
    ← maskRec_closed i ((n + i - i * i) / i) hi, Nat.testBit_shiftLeft,
    testBit_maskRec i _ hi]
  by_cases h1 : i * i ≤ m
  · have hge : m ≥ i * i := h1
    rw [show (decide (m ≥ i * i)) = true from by simp [hge]]
    rw [Bool.true_and]
    have hiff : (i ∣ (m - i * i) ∧ m - i * i < ((n + i - i * i) / i) * i) ↔
        (i ∣ m ∧ i * i ≤ m ∧ m < n + 1) := by
      have hdvd2 : i ∣ i * i := Dvd.intro i rfl
      constructor
      · rintro ⟨hdv, hlt⟩
        obtain ⟨c, hc⟩ := hdv
        have hdm : i ∣ m := by
          have hm2 : m = (m - i * i) + i * i := by omega
          rw [hm2, hc]
          exact Nat.dvd_add (Dvd.intro c rfl) hdvd2
        have hcK : c < (n + i - i * i) / i := by
          have h5 : i * c < ((n + i - i * i) / i) * i := by omega
          have h6 : i * c < i * ((n + i - i * i) / i) := by
            rw [Nat.mul_comm ((n + i - i * i) / i) i] at h5
            exact h5
          exact Nat.lt_of_mul_lt_mul_left h6
        have h7 := (mult_bound_iff n i c hi hni).mp hcK
        omega
      · rintro ⟨hdv, hge2, hlt⟩
        have hdsub : i ∣ (m - i * i) := Nat.dvd_sub' hdv hdvd2
        refine ⟨hdsub, ?_⟩
        obtain ⟨c, hc⟩ := hdsub
        have h7 : i * i + i * c < n + 1 := by omega
        have hcK := (mult_bound_iff n i c hi hni).mpr h7
        have h8 : i * c < i * ((n + i - i * i) / i) := mul_lt_mul_of_pos_left hcK hi
        rw [Nat.mul_comm i ((n + i - i * i) / i)] at h8
        omega
    exact decide_eq_decide.mpr hiff
  · rw [show (decide (m ≥ i * i)) = false from by simp [h1], Bool.false_and]
    symm
    simp only [decide_eq_false_iff_not]
    rintro ⟨_, hge, _⟩
    omega

theorem roundMask_lt (n i : Nat) (hi : 0 < i) (hni : i * i ≤ n) :
    ((((1 <<< (((n + i - i * i) / i) * i)) - 1) / (1 <<< i - 1)) <<< (i * i)) < 2 ^ (n + 1) := by
  apply Nat.lt_pow_two_of_testBit
  intro m hm
  rw [roundMask_testBit n i hi hni m]
  simp only [decide_eq_false_iff_not]
  rintro ⟨_, _, hlt⟩
  omega

theorem bitsCard_or_round (n i : Nat) (hi : 0 < i) (hni : i * i ≤ n)
    (a : Array Bool) (c : Nat)
    (hR : ∀ m, m ≤ n → a.getD m false = !(c.testBit m)) :
    bitsCard (n + 1)
        (c ||| ((((1 <<< (((n + i - i * i) / i) * i)) - 1) / (1 <<< i - 1)) <<< (i * i))) =
      bitsCard (n + 1) c +
        ((Finset.Ico (i * i) (n + 1)).filter
          (fun m => i ∣ m ∧ a.getD m false = true)).card := by
  unfold bitsCard
  have hun : (Finset.range (n + 1)).filter
        (fun m => (c |||
          ((((1 <<< (((n + i - i * i) / i) * i)) - 1) / (1 <<< i - 1)) <<< (i * i))).testBit m
            = true) =
      ((Finset.range (n + 1)).filter (fun m => c.testBit m = true)) ∪
        ((Finset.Ico (i * i) (n + 1)).filter
          (fun m => i ∣ m ∧ a.getD m false = true)) := by
    ext m
    simp only [Finset.mem_filter, Finset.mem_range, Finset.mem_union, Finset.mem_Ico,
      Nat.testBit_or, Bool.or_eq_true]
    constructor
    · rintro ⟨hm, hbit | hbit⟩
      · exact Or.inl ⟨hm, hbit⟩
      · rw [roundMask_testBit n i hi hni m] at hbit
        rw [decide_eq_true_eq] at hbit
        obtain ⟨hdv, hge, hlt⟩ := hbit
        by_cases hcb : c.testBit m = true
        · exact Or.inl ⟨hm, hcb⟩
        · right
          refine ⟨⟨hge, hlt⟩, hdv, ?_⟩
          rw [hR m (by omega)]
          have hfb : c.testBit m = false := by
            cases hv : c.testBit m
            · rfl
            · exact absurd hv hcb
          rw [hfb]
          rfl
    · rintro (⟨hm, hbit⟩ | ⟨⟨hge, hlt⟩, hdv, hat⟩)
      · exact ⟨hm, Or.inl hbit⟩
      · refine ⟨by omega, Or.inr ?_⟩
        rw [roundMask_testBit n i hi hni m, decide_eq_true_eq]
        exact ⟨hdv, hge, hlt⟩
  rw [hun, Finset.card_union_of_disjoint]
  rw [Finset.disjoint_right]
  intro m hmD hmC
  rw [Finset.mem_filter, Finset.mem_Ico] at hmD
  rw [Finset.mem_filter, Finset.mem_range] at hmC
  have := hR m (by omega)
  rw [hmC.2] at this
  rw [hmD.2.2] at this
  simp at this

theorem sieveAux_eq_sieveMask (n W : Nat) (hW : 0 < W) :
    ∀ fuel i (a : Array Bool) (c : Nat) (np : Int), n + 1 - i ≤ fuel → 2 ≤ i →
      a.size = n + 1 →
      (∀ m, m ≤ n → a.getD m false = !(c.testBit m)) →
      np = (n : Int) - 1 - (bitsCard (n + 1) c : Int) →
      sieveAux a i n W np =
        (n : Int) - 1 - (bitsCard (n + 1) (sieveMask n fuel i c) : Int) := by
  intro fuel
  induction fuel with
  | zero =>
    intro i a c np hg h2 hsz hR hnp
    have hni : ¬ i * i ≤ n := by
      have h1 : n + 1 ≤ i := by omega
      have hle : i ≤ i * i := Nat.le_mul_of_pos_left _ (by omega)
      omega
    conv_lhs => rw [sieveAux]
    rw [if_neg hni]
    exact hnp
  | succ fuel ih =>
    intro i a c np hg h2 hsz hR hnp
    have hpi : 0 < i := by omega
    conv_lhs => rw [sieveAux]
    simp only [sieveMask]
    by_cases hni : i * i ≤ n
    · rw [if_pos hni, if_pos hni]
      have hin : i ≤ n := le_trans (Nat.le_mul_of_pos_left _ (by omega)) hni
      have hbit := hR i hin
      by_cases hbset : c.testBit i = true
      · have haF : ¬ a.getD i false = true := by
          rw [hbit, hbset]
          simp
        rw [if_neg haF, if_pos hbset]
        exact ih (i + 1) a c np (by omega) (by omega) hsz hR hnp
      · have hbF : c.testBit i = false := by
          cases hv : c.testBit i
          · rfl
          · exact absurd hv hbset
        have haT : a.getD i false = true := by
          rw [hbit, hbF]
          rfl
        rw [if_pos haT, if_neg hbset]
        have hft : i * i ≤ n + 1 := by omega
        show sieveAux (mark a (i * i) (n + 1) i W).1 (i + 1) n W
            (np - ((mark a (i * i) (n + 1) i W).2 : Int)) = _
        apply ih (i + 1) _ _ _ (by omega) (by omega)
        · rw [mark_size]
          exact hsz
        · intro m hm
          rw [mark_getD a (i * i) (n + 1) i W hpi hW hft m, hR m hm,
            Nat.testBit_or, Bool.not_or]
          rw [roundMask_testBit n i hpi hni m]
          have hd : (decide (i * i ≤ m) && decide (m < n + 1) && decide (i ∣ m)) =
              decide (i ∣ m ∧ i * i ≤ m ∧ m < n + 1) := by
            rw [Bool.and_assoc, ← Bool.decide_and, ← Bool.decide_and]
            exact decide_eq_decide.mpr
              ⟨fun ⟨ha, hb, hc⟩ => ⟨hc, ha, hb⟩, fun ⟨ha, hb, hc⟩ => ⟨hb, hc, ha⟩⟩
          rw [hd]
        · rw [hnp, mark_count a (i * i) (n + 1) i W hpi hW hft,
            bitsCard_or_round n i hpi hni a c hR]
          push_cast
          ring
    · rw [if_neg hni, if_neg hni]
      exact hnp

/-! ### The strided bit count -/

theorem sumDigits_modEq (k : Nat) (hk : 0 < k) :
    ∀ f x, x < 2 ^ (k * f) → x ≡ sumDigits k f x [MOD 2 ^ k - 1] := by
  intro f
  induction f with
  | zero =>
    intro x hx
    have hx0 : x = 0 := by
      rw [Nat.mul_zero, pow_zero] at hx
      omega
    subst hx0
    rfl
  | succ f ih =>
    intro x hx
    have h1 : (1 : Nat) ≡ 2 ^ k [MOD 2 ^ k - 1] :=
      (Nat.modEq_iff_dvd' Nat.one_le_two_pow).mpr dvd_rfl
    have hq : x / 2 ^ k < 2 ^ (k * f) := by
      rw [Nat.div_lt_iff_lt_mul (Nat.two_pow_pos k)]
      calc x < 2 ^ (k * (f + 1)) := hx
        _ = 2 ^ (k * f) * 2 ^ k := by
            rw [← pow_add, Nat.mul_add, Nat.mul_one]
    calc x = 2 ^ k * (x / 2 ^ k) + x % 2 ^ k := (Nat.div_add_mod x (2 ^ k)).symm
      _ ≡ 1 * (x / 2 ^ k) + x % 2 ^ k [MOD 2 ^ k - 1] :=
          Nat.ModEq.add_right _ (Nat.ModEq.mul_right _ h1.symm)
      _ = x / 2 ^ k + x % 2 ^ k := by rw [Nat.one_mul]
      _ ≡ sumDigits k f (x / 2 ^ k) + x % 2 ^ k [MOD 2 ^ k - 1] :=
          Nat.ModEq.add_right _ (ih _ hq)
      _ = sumDigits k (f + 1) x := by
          show sumDigits k f (x / 2 ^ k) + x % 2 ^ k = x % 2 ^ k + sumDigits k f (x / 2 ^ k)
          ring

theorem sumDigits_lt_imp_mod (k f x : Nat) (hk : 0 < k) (hx : x < 2 ^ (k * f))
    (hS : sumDigits k f x < 2 ^ k - 1) : x % (2 ^ k - 1) = sumDigits k f x := by
  have h : x % (2 ^ k - 1) = sumDigits k f x % (2 ^ k - 1) := sumDigits_modEq k hk f x hx
  rw [h, Nat.mod_eq_of_lt hS]

theorem sumDigits_strided (k : Nat) (hk : 0 < k) :
    ∀ B y, (∀ f r, 0 < r → r < k → y.testBit (k * f + r) = false) →
      sumDigits k B y = ∑ f ∈ Finset.range B, (y.testBit (k * f)).toNat := by
  intro B
  induction B with
  | zero =>
    intro y _
    simp [sumDigits]
  | succ B ih =>
    intro y hy
    show y % 2 ^ k + sumDigits k B (y / 2 ^ k) = _
    have hdiv : y / 2 ^ k = y >>> k := (Nat.shiftRight_eq_div_pow y k).symm
    have hy' : ∀ f r, 0 < r → r < k → (y / 2 ^ k).testBit (k * f + r) = false := by
      intro f r hr hrk
      rw [hdiv, Nat.testBit_shiftRight]
      have he : k + (k * f + r) = k * (f + 1) + r := by ring
      rw [he]
      exact hy (f + 1) r hr hrk
    rw [ih (y / 2 ^ k) hy']
    have hd0 : y % 2 ^ k = (y.testBit 0).toNat := by
      have hlt : y % 2 ^ k < 2 ^ 1 := by
        apply Nat.lt_pow_two_of_testBit
        intro r hr
        rw [Nat.testBit_mod_two_pow]
        by_cases hrk : r < k
        · have h0r : 0 < r := by omega
          have hb := hy 0 r h0r hrk
          rw [show k * 0 + r = r from by ring] at hb
          simp [hrk, hb]
        · simp [hrk]
      have hb0 : (y % 2 ^ k).testBit 0 = y.testBit 0 := by
        rw [Nat.testBit_mod_two_pow]
        simp [hk]
      rw [← hb0]
      rw [pow_one] at hlt
      interval_cases h : (y % 2 ^ k) <;> simp
    rw [hd0]
    have hcong : ∑ f ∈ Finset.range B, ((y / 2 ^ k).testBit (k * f)).toNat
        = ∑ f ∈ Finset.range B, (y.testBit (k * (f + 1))).toNat := by
      apply Finset.sum_congr rfl
      intro f _
      rw [hdiv, Nat.testBit_shiftRight]
      congr 1
      ring
    rw [hcong, Finset.sum_range_succ']
    rw [Nat.mul_zero]
    omega

theorem popStride_sum (k B c : Nat) :
    ∀ J, popStride k B c J =
      ∑ j ∈ Finset.range J,
        (((c >>> j) &&& ((1 <<< (k * B) - 1) / (1 <<< k - 1))) % (1 <<< k - 1)) := by
  intro J
  induction J with
  | zero => rfl
  | succ J ih =>
    rw [Finset.sum_range_succ, ← ih]
    rfl

theorem popStride_term_eq (k B c j : Nat) (hk : 0 < k) (hB : B < 2 ^ k - 1) :
    (((c >>> j) &&& ((1 <<< (k * B) - 1) / (1 <<< k - 1))) % (1 <<< k - 1)) =
      ((Finset.range B).filter (fun f => c.testBit (k * f + j) = true)).card := by
  have hmask : ((1 <<< (k * B) - 1) / (1 <<< k - 1)) = maskRec k B := by
    rw [Nat.one_shiftLeft, Nat.one_shiftLeft, maskRec_closed k B hk, Nat.mul_comm k B]
  have hmod : (1 <<< k - 1) = 2 ^ k - 1 := by rw [Nat.one_shiftLeft]
  rw [hmask, hmod]
  have hybit : ∀ m, ((c >>> j) &&& maskRec k B).testBit m =
      ((c.testBit (j + m)) && decide (k ∣ m ∧ m < k * B)) := by
    intro m
    rw [Nat.testBit_and, Nat.testBit_shiftRight, testBit_maskRec k B hk, Nat.mul_comm B k]
  have hstr : ∀ f r, 0 < r → r < k →
      ((c >>> j) &&& maskRec k B).testBit (k * f + r) = false := by
    intro f r hr hrk
    rw [hybit]
    have hnd : ¬ k ∣ (k * f + r) := by
      intro hdv
      have h1 : k ∣ r := (Nat.dvd_add_right (Dvd.intro f rfl)).mp hdv
      have h2 := Nat.le_of_dvd hr h1
      omega
    simp [hnd]
  have hylt : ((c >>> j) &&& maskRec k B) < 2 ^ (k * B) := by
    rw [Nat.mul_comm k B]
    exact Nat.and_lt_two_pow _ (maskRec_lt k B hk)
  have hS : sumDigits k B ((c >>> j) &&& maskRec k B) =
      ((Finset.range B).filter (fun f => c.testBit (k * f + j) = true)).card := by
    rw [sumDigits_strided k hk B _ hstr, Finset.card_filter]
    apply Finset.sum_congr rfl
    intro f hf
    rw [Finset.mem_range] at hf
    have hbit2 : ((c >>> j) &&& maskRec k B).testBit (k * f) = c.testBit (k * f + j) := by
      rw [hybit]
      have hd : k ∣ k * f := Dvd.intro f rfl
      have hlt : k * f < k * B := mul_lt_mul_of_pos_left hf hk
      simp [hd, hlt, Nat.add_comm j (k * f)]
    rw [hbit2]
    cases c.testBit (k * f + j) <;> simp
  have hbound : sumDigits k B ((c >>> j) &&& maskRec k B) < 2 ^ k - 1 := by
    rw [hS]
    calc ((Finset.range B).filter (fun f => c.testBit (k * f + j) = true)).card
        ≤ (Finset.range B).card := Finset.card_filter_le _ _
      _ = B := Finset.card_range B
      _ < 2 ^ k - 1 := hB
  rw [sumDigits_lt_imp_mod k B _ hk hylt hbound, hS]

theorem bitsCard_restrict (N M c : Nat) (hc : c < 2 ^ N) (hNM : N ≤ M) :
    bitsCard M c = bitsCard N c := by
  unfold bitsCard
  apply congrArg Finset.card
  ext m
  simp only [Finset.mem_filter, Finset.mem_range]
  constructor
  · rintro ⟨hm, hbit⟩
    by_cases hmN : m < N
    · exact ⟨hmN, hbit⟩
    · have hzero : c.testBit m = false := by
        apply Nat.testBit_lt_two_pow
        calc c < 2 ^ N := hc
          _ ≤ 2 ^ m := Nat.pow_le_pow_right (by omega) (by omega)
      rw [hzero] at hbit
      exact absurd hbit (by simp)
  · rintro ⟨hm, hbit⟩
    exact ⟨by omega, hbit⟩

theorem bitsCard_fiberwise (k B c : Nat) (hk : 0 < k) :
    bitsCard (k * B) c =
      ∑ j ∈ Finset.range k,
        ((Finset.range B).filter (fun f => c.testBit (k * f + j) = true)).card := by
  unfold bitsCard
  rw [Finset.card_eq_sum_card_fiberwise
    (f := fun m => m % k) (t := Finset.range k)
    (fun m _ => Finset.mem_range.mpr (Nat.mod_lt m hk))]
  apply Finset.sum_congr rfl
  intro j hj
  rw [Finset.mem_range] at hj
  apply Finset.card_bij' (fun m _ => m / k) (fun f _ => k * f + j)
  · intro m hm
    rw [Finset.mem_filter, Finset.mem_filter, Finset.mem_range] at hm
    rw [Finset.mem_filter, Finset.mem_range]
    obtain ⟨⟨hmlt, hmbit⟩, hmod⟩ := hm
    have hrec : k * (m / k) + j = m := by
      conv_rhs => rw [← Nat.div_add_mod m k]
      rw [hmod]
    constructor
    · rw [Nat.div_lt_iff_lt_mul hk]
      calc m < k * B := hmlt
        _ = B * k := Nat.mul_comm k B
    · rw [hrec]
      exact hmbit
  · intro f hf
    rw [Finset.mem_filter, Finset.mem_range] at hf
    rw [Finset.mem_filter, Finset.mem_filter, Finset.mem_range]
    obtain ⟨hflt, hfbit⟩ := hf
    refine ⟨⟨?_, hfbit⟩, ?_⟩
    · calc k * f + j < k * f + k := by omega
        _ = k * (f + 1) := by ring
        _ ≤ k * B := Nat.mul_le_mul_left k (by omega)
    · rw [Nat.mul_add_mod]
      exact Nat.mod_eq_of_lt hj
  · intro m hm
    rw [Finset.mem_filter, Finset.mem_filter, Finset.mem_range] at hm
    obtain ⟨⟨hmlt, hmbit⟩, hmod⟩ := hm
    conv_rhs => rw [← Nat.div_add_mod m k]
    rw [hmod]
  · intro f hf
    rw [Finset.mem_filter, Finset.mem_range] at hf
    rw [Nat.mul_add_div hk, Nat.div_eq_of_lt hj]
    omega

theorem popStride_eq_bitsCard (k B c N : Nat) (hk : 0 < k) (hB : B < 2 ^ k - 1)
    (hc : c < 2 ^ N) (hN : N ≤ k * B) :
    popStride k B c k = bitsCard N c := by
  rw [popStride_sum k B c k]
  have hterms : ∑ j ∈ Finset.range k,
      (((c >>> j) &&& ((1 <<< (k * B) - 1) / (1 <<< k - 1))) % (1 <<< k - 1)) =
      ∑ j ∈ Finset.range k,
        ((Finset.range B).filter (fun f => c.testBit (k * f + j) = true)).card := by
    apply Finset.sum_congr rfl
    intro j _
    exact popStride_term_eq k B c j hk hB
  rw [hterms, ← bitsCard_fiberwise k B c hk, bitsCard_restrict N (k * B) c hc hN]

/-! ### Equality of the sieve and its kernel-evaluable twin -/

theorem sieveMask_lt (n : Nat) :
    ∀ fuel i c, 0 < i → c < 2 ^ (n + 1) → sieveMask n fuel i c < 2 ^ (n + 1) := by
  intro fuel
  induction fuel with
  | zero =>
    intro i c _ hc
    exact hc
  | succ fuel ih =>
    intro i c hi hc
    simp only [sieveMask]
    by_cases hni : i * i ≤ n
    · rw [if_pos hni]
      by_cases hb : c.testBit i = true
      · rw [if_pos hb]
        exact ih (i + 1) c (by omega) hc
      · rw [if_neg hb]
        exact ih (i + 1) _ (by omega)
          (Nat.or_lt_two_pow hc (roundMask_lt n i hi hni))
    · rw [if_neg hni]
      exact hc

theorem sieve_eq_sieveFast (n W k B : Nat) (hW : 0 < W) (hk : 0 < k)
    (hB : B < 2 ^ k - 1) (hkB : n + 1 ≤ k * B) :
    sieve n W = sieveFast k B n := by
  unfold sieve sieveFast
  have hR0 : ∀ m, m ≤ n →
      (Array.mkArray (n + 1) true).getD m false = !((0 : Nat).testBit m) := by
    intro m hm
    rw [mkArray_getD_true (n + 1) m (by omega)]
    simp
  have hnp0 : ((n : Int) - 1) = (n : Int) - 1 - (bitsCard (n + 1) 0 : Int) := by
    have h0 : bitsCard (n + 1) 0 = 0 := by
      unfold bitsCard
      simp
    rw [h0]
    simp
  rw [sieveAux_eq_sieveMask n W hW (n + 1) 2 (Array.mkArray (n + 1) true) 0
    ((n : Int) - 1) (by omega) (by omega) (by simp) hR0 hnp0]
  have hc := sieveMask_lt n (n + 1) 2 0 (by omega) (Nat.two_pow_pos (n + 1))
  rw [popStride_eq_bitsCard k B (sieveMask n (n + 1) 2 0) (n + 1) hk hB hc hkB]

/-! ### Small direct evaluations of the embedded program -/

theorem sieve_zero (W : Nat) : sieve 0 W = -1 := by
  unfold sieve
  conv_lhs => rw [sieveAux]
  rw [if_neg (by omega : ¬ 2 * 2 ≤ 0)]
  norm_num

theorem sieve_one (W : Nat) : sieve 1 W = 0 := by
  unfold sieve
  conv_lhs => rw [sieveAux]
  rw [if_neg (by omega : ¬ 2 * 2 ≤ 1)]
  norm_num

/-! ### Kernel evaluations of the twin at the reference points -/

set_option maxRecDepth 100000 in
theorem sieveFast_10 : sieveFast 20 1 10 = 4 := by decide

set_option maxRecDepth 100000 in
theorem sieveFast_100 : sieveFast 20 6 100 = 25 := by decide

set_option maxRecDepth 100000 in
theorem sieveFast_1000 : sieveFast 20 51 1000 = 168 := by decide

set_option maxRecDepth 100000 in
theorem sieveFast_10000 : sieveFast 20 501 10000 = 1229 := by decide

set_option maxRecDepth 100000 in
set_option maxHeartbeats 1000000 in
theorem sieveFast_100000 : sieveFast 20 5001 100000 = 9592 := by decide

set_option maxRecDepth 100000 in
set_option maxHeartbeats 2000000 in
theorem sieveFast_1000000 : sieveFast 20 50001 1000000 = 78498 := by decide

/-! ### The claims -/

/-- Claim C1: for every worker count `W ≥ 1`, running the sieve yields the
prime-counting function values: `sieve(10) = 4`, `sieve(100) = 25`,
`sieve(1000) = 168`, `sieve(10000) = 1229`, `sieve(100000) = 9592`,
`sieve(1000000) = 78498`. -/
theorem C1_sieve_reference_values (W : Nat) (hW : 1 ≤ W) :
    sieve 10 W = 4 ∧ sieve 100 W = 25 ∧ sieve 1000 W = 168 ∧
    sieve 10000 W = 1229 ∧ sieve 100000 W = 9592 ∧ sieve 1000000 W = 78498 := by
  refine ⟨?_, ?_, ?_, ?_, ?_, ?_⟩
  · rw [sieve_eq_sieveFast 10 W 20 1 hW (by decide) (by decide) (by decide)]
    exact sieveFast_10
  · rw [sieve_eq_sieveFast 100 W 20 6 hW (by decide) (by decide) (by decide)]
    exact sieveFast_100
  · rw [sieve_eq_sieveFast 1000 W 20 51 hW (by decide) (by decide) (by decide)]
    exact sieveFast_1000
  · rw [sieve_eq_sieveFast 10000 W 20 501 hW (by decide) (by decide) (by decide)]
    exact sieveFast_10000
  · rw [sieve_eq_sieveFast 100000 W 20 5001 hW (by decide) (by decide) (by decide)]
    exact sieveFast_100000
  · rw [sieve_eq_sieveFast 1000000 W 20 50001 hW (by decide) (by decide) (by decide)]
    exact sieveFast_1000000

/-- Witness for C1 at `W = 1`. -/
theorem C1_witness :
    1 ≤ 1 ∧
    (sieve 10 1 = 4 ∧ sieve 100 1 = 25 ∧ sieve 1000 1 = 168 ∧
      sieve 10000 1 = 1229 ∧ sieve 100000 1 = 9592 ∧ sieve 1000000 1 = 78498) :=
  ⟨by decide, C1_sieve_reference_values 1 (by decide)⟩

/-- Claim C2: under the preconditions `0 ≤ from ≤ to ≤ len(array)`, `p ≥ 1`
(and at least one worker), `mark` clears exactly the currently-set flags at
multiples of `p` in `[from, to)`, returns the number of flags it newly
cleared, and when `to ≤ from` it returns `0` and changes nothing. -/
theorem C2_mark_contract (a : Array Bool) (frm til p W : Nat)
    (hp : 1 ≤ p) (hW : 1 ≤ W) (hft : frm ≤ til) (hsz : til ≤ a.size) :
    (∀ i, i < a.size →
      ((mark a frm til p W).1.getD i false = false ↔
        (a.getD i false = false ∨ (frm ≤ i ∧ i < til ∧ p ∣ i)))) ∧
    (mark a frm til p W).2 =
      ((Finset.Ico frm til).filter (fun i => p ∣ i ∧ a.getD i false = true)).card ∧
    (til ≤ frm → mark a frm til p W = (a, 0)) := by
  refine ⟨?_, mark_count a frm til p W hp hW hft, ?_⟩
  · intro i _
    rw [mark_getD a frm til p W hp hW hft i]
    cases hav : a.getD i false <;> by_cases h1 : frm ≤ i <;> by_cases h2 : i < til <;>
      by_cases h3 : p ∣ i <;> simp [h1, h2, h3]
  · intro hle
    have hfe : til = frm := by omega
    subst hfe
    apply Prod.ext
    · apply Array.ext
      · rw [mark_size]
      · intro i h1 h2
        have hg := mark_getD a til til p W hp hW (le_refl til) i
        have hnb : ¬ (til ≤ i ∧ i < til) := by omega
        have hmask : (decide (til ≤ i) && decide (i < til) && decide (p ∣ i)) = false := by
          by_cases hta : til ≤ i
          · have h4 : ¬ i < til := by omega
            simp [h4]
          · simp [hta]
        rw [hmask] at hg
        simp only [Bool.not_false, Bool.and_true] at hg
        rw [Array.getD_eq_get?, Array.getD_eq_get?, Array.getElem?_lt _ h1,
          Array.getElem?_lt _ h2] at hg
        simpa using hg
    · rw [mark_count a til til p W hp hW (le_refl til)]
      simp

/-- Witness for C2 on a six-element array with `from = 2`, `to = 6`,
`p = 2`, `W = 2`, at index `4`. -/
theorem C2_witness :
    (1 ≤ 2 ∧ 1 ≤ 2 ∧ 2 ≤ 6 ∧ 6 ≤ (#[true, true, true, true, true, true] : Array Bool).size) ∧
    ((mark #[true, true, true, true, true, true] 2 6 2 2).1.getD 4 false = false ↔
      ((#[true, true, true, true, true, true] : Array Bool).getD 4 false = false ∨
        (2 ≤ 4 ∧ 4 < 6 ∧ 2 ∣ 4))) ∧
    (mark #[true, true, true, true, true, true] 2 6 2 2).2 =
      ((Finset.Ico 2 6).filter
        (fun i => 2 ∣ i ∧
          (#[true, true, true, true, true, true] : Array Bool).getD i false = true)).card :=
  ⟨by decide,
   (C2_mark_contract #[true, true, true, true, true, true] 2 6 2 2
      (by decide) (by decide) (by decide) (by decide)).1 4 (by decide),
   (C2_mark_contract #[true, true, true, true, true, true] 2 6 2 2
      (by decide) (by decide) (by decide) (by decide)).2.1⟩

/-- Claim C3: for `from ≤ to` and `W ≥ 1`, the `W` sub-ranges given by
`subFrom` and `subTo` are contiguous (`subTo id = subFrom (id+1)`), pairwise
disjoint, their union is exactly `[from, to)`, and their lengths sum to
`to - from`, whether or not `W` divides `to - from`. -/
theorem C3_partition_correct (frm til W : Nat) (hW : 1 ≤ W) (hft : frm ≤ til) :
    (∀ id, subTo frm til W id = subFrom frm til W (id + 1)) ∧
    (∀ id1 id2, id1 < id2 → id2 < W →
      Disjoint (Finset.Ico (subFrom frm til W id1) (subTo frm til W id1))
        (Finset.Ico (subFrom frm til W id2) (subTo frm til W id2))) ∧
    ((Finset.range W).biUnion
        (fun id => Finset.Ico (subFrom frm til W id) (subTo frm til W id)) =
      Finset.Ico frm til) ∧
    (∑ id ∈ Finset.range W, (subTo frm til W id - subFrom frm til W id)) = til - frm := by
  refine ⟨fun id => subTo_eq_subFrom_succ frm til W id,
    fun id1 id2 h1 _ => blocks_disjoint frm til W h1, ?_, ?_⟩
  · rw [blocks_biUnion frm til W W, subFrom_W frm til W hW hft]
  · rw [blocks_sum frm til W W, subFrom_W frm til W hW hft]

/-- Witness for C3 with `from = 3`, `to = 10`, `W = 4`. -/
theorem C3_witness :
    (1 ≤ 4 ∧ 3 ≤ 10) ∧
    subTo 3 10 4 0 = subFrom 3 10 4 1 ∧
    Disjoint (Finset.Ico (subFrom 3 10 4 0) (subTo 3 10 4 0))
      (Finset.Ico (subFrom 3 10 4 2) (subTo 3 10 4 2)) ∧
    ((Finset.range 4).biUnion
        (fun id => Finset.Ico (subFrom 3 10 4 id) (subTo 3 10 4 id)) =
      Finset.Ico 3 10) ∧
    (∑ id ∈ Finset.range 4, (subTo 3 10 4 id - subFrom 3 10 4 id)) = 10 - 3 :=
  ⟨by decide,
   (C3_partition_correct 3 10 4 (by decide) (by decide)).1 0,
   (C3_partition_correct 3 10 4 (by decide) (by decide)).2.1 0 2 (by decide) (by decide),
   (C3_partition_correct 3 10 4 (by decide) (by decide)).2.2.1,
   (C3_partition_correct 3 10 4 (by decide) (by decide)).2.2.2⟩

/-- Claim C4: for a fixed bound `n`, the sieve computes the same count for
every pair of worker counts `W1, W2 ≥ 1`; in particular the counts for 1, 8
and 64 workers coincide. -/
theorem C4_worker_count_independent (n W1 W2 : Nat) (h1 : 1 ≤ W1) (h2 : 1 ≤ W2) :
    sieve n W1 = sieve n W2 ∧ sieve n 1 = sieve n 8 ∧ sieve n 8 = sieve n 64 := by
  have key : ∀ V1 V2, 0 < V1 → 0 < V2 → sieve n V1 = sieve n V2 := by
    intro V1 V2 hv1 hv2
    unfold sieve
    exact sieveAux_W_indep n V1 V2 hv1 hv2 (n + 1) 2 _ _ (by omega)
  exact ⟨key W1 W2 h1 h2, key 1 8 (by omega) (by omega), key 8 64 (by omega) (by omega)⟩

/-- Witness for C4 at `n = 20`, `W1 = 1`, `W2 = 8`. -/
theorem C4_witness :
    (1 ≤ 1 ∧ 1 ≤ 8) ∧
    (sieve 20 1 = sieve 20 8 ∧ sieve 20 1 = sieve 20 8 ∧ sieve 20 8 = sieve 20 64) :=
  ⟨by decide, C4_worker_count_independent 20 1 8 (by decide) (by decide)⟩

/-- Claim C5: every flag starts `true` after initialization, and `mark` never
turns a flag from `false` back to `true`: a flag that is set in the result of
`mark` was already set before, so once an index is marked composite it stays
marked for the rest of the run. -/
theorem C5_flags_monotone :
    (∀ n i : Nat, i ≤ n → (Array.mkArray (n + 1) true).getD i false = true) ∧
    (∀ (a : Array Bool) (frm til p W i : Nat),
      (mark a frm til p W).1.getD i false = true → a.getD i false = true) := by
  constructor
  · intro n i hi
    exact mkArray_getD_true (n + 1) i (by omega)
  · intro a frm til p W i h
    exact mark_mono a frm til p W i h

/-- Witness for C5: the initial array is all-true at `n = 4`, `i = 3`, and a
flag still set after `mark` on a concrete six-element array was set before. -/
theorem C5_witness :
    (Array.mkArray 5 true).getD 3 false = true ∧
    (#[true, true, true, true, true, true] : Array Bool).getD 5 false = true := by
  constructor
  · exact C5_flags_monotone.1 4 3 (by decide)
  · apply C5_flags_monotone.2 #[true, true, true, true, true, true] 2 6 2 1 5
    rw [mark_getD #[true, true, true, true, true, true] 2 6 2 1
      (by decide) (by decide) (by decide) 5]
    decide

/-- Claim C6 (amended): for `n = 1`, the only `n` with `0 ≤ n < 2` on which
the program's initialization `nprimes = n - 1` yields the trivial count, the
sieve returns `0` for every worker count; at `n = 0` the code returns `-1`,
not `0`. -/
theorem C6_amended_small_bounds (W : Nat) : sieve 1 W = 0 :=
  sieve_one W

/-- Counterexample for C6 as stated: at `n = 0` the code returns
`nprimes = n - 1 = -1`, not `0`. -/
theorem C6_counterexample : sieve 0 1 = -1 ∧ sieve 0 1 ≠ 0 := by
  refine ⟨sieve_zero 1, ?_⟩
  rw [sieve_zero 1]
  decide

/-- Claim C7: for `p ≥ 1` (and at least one worker), calling `mark` twice in
succession on the same array and range returns a count `≥ 0` the first time
and exactly `0` the second time. -/
theorem C7_mark_idempotent (a : Array Bool) (frm til p W : Nat)
    (hp : 1 ≤ p) (hW : 1 ≤ W) :
    0 ≤ (mark a frm til p W).2 ∧ (mark (mark a frm til p W).1 frm til p W).2 = 0 := by
  refine ⟨Nat.zero_le _, ?_⟩
  conv_lhs => rw [mark_eq_markUpTo]
  rw [(markUpTo_spec (mark a frm til p W).1 frm til p W hp W).2]
  apply Finset.card_eq_zero.mpr
  apply Finset.filter_false_of_mem
  intro i hi hcon
  rw [Finset.mem_Ico] at hi
  obtain ⟨hdv, htrue⟩ := hcon
  have hpt := (markUpTo_spec a frm til p W hp W).1 i
  rw [← mark_eq_markUpTo] at hpt
  rw [hpt] at htrue
  simp [hi.1, hi.2, hdv] at htrue

/-- Witness for C7 on a six-element array with `from = 2`, `to = 6`, `p = 2`,
`W = 2`. -/
theorem C7_witness :
    (1 ≤ 2 ∧ 1 ≤ 2) ∧
    (0 ≤ (mark #[true, true, true, true, true, true] 2 6 2 2).2 ∧
      (mark (mark #[true, true, true, true, true, true] 2 6 2 2).1 2 6 2 2).2 = 0) :=
  ⟨by decide,
   C7_mark_idempotent #[true, true, true, true, true, true] 2 6 2 2 (by decide) (by decide)⟩

/-- Claim C8: for every `n ≥ 0` (and every worker count `W ≥ 1`), extending
the domain by one number adds at most one prime:
`sieve (n+1) - sieve n ∈ {0, 1}`. -/
theorem C8_sieve_step (n W : Nat) (hW : 1 ≤ W) :
    sieve (n + 1) W - sieve n W = 0 ∨ sieve (n + 1) W - sieve n W = 1 := by
  cases n with
  | zero =>
    right
    rw [sieve_one W, sieve_zero W]
    decide
  | succ m =>
    rw [sieve_correct (m + 2) W (by omega) (by omega),
      sieve_correct (m + 1) W (by omega) (by omega)]
    have hstep := primeCount_succ (m + 1)
    by_cases hp : Nat.Prime (m + 2)
    · right
      rw [hstep, if_pos hp]
      push_cast
      ring
    · left
      rw [hstep, if_neg hp]
      push_cast
      ring

/-- Witness for C8 at `n = 9`, `W = 1`. -/
theorem C8_witness :
    1 ≤ 1 ∧ (sieve 10 1 - sieve 9 1 = 0 ∨ sieve 10 1 - sieve 9 1 = 1) :=
  ⟨by decide, C8_sieve_step 9 1 (by decide)⟩

/-- Claim C9: every `n` exceeding the hard maximum `1ul << 31` is refused
with the fatal error before the flag buffer is allocated and before any
computation is attempted. -/
theorem C9_range_guard (n W : Nat) (h : 2 ^ 31 < n) :
    runSieve n W = Except.error "FATAL: n too large" := by
  unfold runSieve
  rw [if_pos h]

/-- Witness for C9 at `n = 2^31 + 1`, `W = 1`. -/
theorem C9_witness :
    2 ^ 31 < 2 ^ 31 + 1 ∧
    runSieve (2 ^ 31 + 1) 1 = Except.error "FATAL: n too large" :=
  ⟨by decide, C9_range_guard (2 ^ 31 + 1) 1 (by decide)⟩

/-- Claim C10: under the preconditions `0 ≤ from ≤ to ≤ len(array)` and
`p ≥ 1` (and at least one worker), `mark` writes only inside `[from, to)`:
every entry at an index outside `[from, to)` is unchanged by the call. -/
theorem C10_mark_frame (a : Array Bool) (frm til p W : Nat)
    (hp : 1 ≤ p) (hW : 1 ≤ W) (hft : frm ≤ til) (hsz : til ≤ a.size) :
    ∀ i, ¬ (frm ≤ i ∧ i < til) →
      (mark a frm til p W).1.getD i false = a.getD i false := by
  intro i hi
  rw [mark_getD a frm til p W hp hW hft i]
  by_cases h1 : frm ≤ i
  · have h2 : ¬ i < til := fun hc => hi ⟨h1, hc⟩
    simp [h2]
  · simp [h1]

/-- Witness for C10 on a six-element array with `from = 2`, `to = 6`,
`p = 2`, `W = 2`, at the outside index `1`. -/
theorem C10_witness :
    (1 ≤ 2 ∧ 1 ≤ 2 ∧ 2 ≤ 6 ∧ 6 ≤ (#[true, true, true, true, true, true] : Array Bool).size ∧
      ¬ (2 ≤ 1 ∧ 1 < 6)) ∧
    (mark #[true, true, true, true, true, true] 2 6 2 2).1.getD 1 false =
      (#[true, true, true, true, true, true] : Array Bool).getD 1 false :=
  ⟨by decide,
   C10_mark_frame #[true, true, true, true, true, true] 2 6 2 2
     (by decide) (by decide) (by decide) (by decide) 1 (by decide)⟩
